import Mathlib

/-!
Verification of the MICE imputation engine of `fancyimpute`
(`src/fancyimpute/mice.py`) against its specification.

The Python code is shallowly embedded as follows.

* A numeric matrix with NaN sentinels is an `XMat`: entries are `Option ℚ`
  with `none` standing for NaN.  The working matrix `X_filled`, which holds
  no NaN after initialization, is a total function `Mat := Nat → Nat → ℚ`.
* The global numpy random stream is abstracted as a state `Rng := Nat`;
  `np.random.seed s` replaces the state by `s`.  The stochastic primitives
  (`np.random.normal` composed with the preceding `np.sqrt`,
  `np.random.choice`, the correlation-weighted wide-table column selector)
  and the external regression model (`fit` / `predict` / `predict_dist`,
  a collaborator whose sources are outside this repository) are collected
  in a structure `ExtOps M` over an abstract model-state type `M`; theorems
  quantify over it, so they cover every model and random stream.
* Python exceptions are an explicit `Except Err` result.
* `self.model` is a single mutable object: `brr = self.model` aliases it,
  `brr.fit` updates it in place, and every slot of `self.fitted_models`
  stores a reference to that same object.  The embedding therefore keeps
  one model state `M` in the run state; ensemble slots are bare references
  (`Unit`), and dereferencing a slot yields the current shared state.
  A ghost trace (`fits`, `roundMats`) records intermediate states so that
  theorems can speak about them; no embedded computation reads the trace.
-/

namespace FancyMICE

/-- Global numpy random state, abstracted. `np.random.seed s` sets it to `s`. -/
abbrev Rng := Nat

/-- A fully populated working matrix (`X_filled`). -/
abbrev Mat := Nat → Nat → ℚ

/-- A boolean matrix such as `missing_mask`. -/
abbrev Mask := Nat → Nat → Bool

/-- Input matrix: `none` entries model the NaN missing-value sentinel. -/
structure XMat where
  rows : Nat
  cols : Nat
  entry : Nat → Nat → Option ℚ

/-- `missing_mask = np.isnan(X)`. -/
def missingOf (X : XMat) : Mask := fun i j => (X.entry i j).isNone

/-- Error taxonomy of the spec plus the raw Python failure modes that fall
outside it (`UnboundLocalError`, `AttributeError`, numpy `ValueError` /
`IndexError`). -/
inductive Err where
  | configurationError
  | dimensionError
  | stateError
  | inputError
  | valueError
  | unboundLocal
  | attributeError
  | indexError
deriving DecidableEq

/-- External collaborators: the regression model contract
(`fit(X, y)`, `predict(X, random_draw)`, `predict_dist(X)`), the random
primitives, and the wide-table predictor-column selector.  `M` is the state
of a model object; `fit` returns the updated state of the mutated object. -/
structure ExtOps (M : Type) where
  fit : M → List (List ℚ) → List ℚ → M
  predict : M → List (List ℚ) → Bool → Rng → List ℚ × Rng
  predictDist : M → List (List ℚ) → List ℚ × List ℚ
  normalFromDist : ℚ → ℚ → Rng → ℚ × Rng
  choice : Nat → Rng → Nat × Rng
  selectOther : Nat → Nat → Mat → Rng → List Nat × Rng

/-- Constructor configuration of `MICE.__init__`. -/
structure Config where
  visitSequence : String
  nImputations : Nat
  nBurnIn : Nat
  nPmmNeighbors : Nat
  imputeType : String
  nNearestColumns : Option Nat
  initFillMethod : String
  minValue : Option ℚ
  maxValue : Option ℚ
  seed : Option Nat

/-- `np.mean` of a list (the arithmetic mean). -/
def listMean (l : List ℚ) : ℚ := l.sum / l.length

/-- `np.median` of a list: middle of the sorted list, or the average of the
two middle elements for even length. -/
def listMedian (l : List ℚ) : ℚ :=
  let s := List.insertionSort (· ≤ ·) l
  if l.length % 2 = 1 then s.getD (l.length / 2) 0
  else (s.getD (l.length / 2 - 1) 0 + s.getD (l.length / 2) 0) / 2

/-- Row indices `i < rows` with `mask i col` true, ascending
(`np.arange(n_rows)[missing_mask[:, col]]`). -/
def missingRows (mask : Mask) (rows col : Nat) : List Nat :=
  (List.range rows).filter (fun i => mask i col)

/-- Row indices with `mask i col` false, ascending. -/
def observedRows (mask : Mask) (rows col : Nat) : List Nat :=
  (List.range rows).filter (fun i => !(mask i col))

/-- `missing_mask.sum(axis=0)[col]`. -/
def colMissingCount (mask : Mask) (rows col : Nat) : Nat :=
  (missingRows mask rows col).length

/-- `X[np.ix_(rowIdx, colIdx)]`. -/
def subMatrix (Xf : Mat) (rowIdx colIdx : List Nat) : List (List ℚ) :=
  rowIdx.map (fun i => colIdx.map (fun j => Xf i j))

/-- The masked entries of row `i`, in ascending column order. -/
def rowSeg (mask : Mask) (cols : Nat) (Xf : Mat) (i : Nat) : List ℚ :=
  ((List.range cols).filter (fun j => mask i j)).map (fun j => Xf i j)

/-- `X_filled[missing_mask]`: masked entries in row-major (C) order, the
order numpy uses for boolean fancy indexing. -/
def maskFlatten (mask : Mask) (rows cols : Nat) (Xf : Mat) : List ℚ :=
  (List.range rows).flatMap (rowSeg mask cols Xf)

/-- Row-major rank of a masked position `(i, j)` among all masked positions. -/
def maskPos (mask : Mask) (cols i j : Nat) : Nat :=
  ((List.range i).map (fun r => ((List.range cols).filter (fun c => mask r c)).length)).sum
    + ((List.range j).filter (fun c => mask i c)).length

/-- `imputed_arrays.mean(axis=0)`. -/
def meanAxis0 (ls : List (List ℚ)) : List ℚ :=
  (List.range (ls.headD []).length).map (fun p => listMean (ls.map (fun r => r.getD p 0)))

/-- `X_completed[missing_mask] = vals`: write `vals` into the masked
positions of a copy of `X`, in row-major order. -/
def maskAssign (X : XMat) (mask : Mask) (vals : List ℚ) : Nat → Nat → Option ℚ :=
  fun i j =>
    if i < X.rows ∧ j < X.cols ∧ mask i j = true then
      some (vals.getD (maskPos mask X.cols i j) 0)
    else X.entry i j

/-- Modelled from the spec: `Solver.clip` clips to `[min_value, max_value]`,
unbounded where unset (`solver.py` is not among the sources). -/
def clip (cfg : Config) (v : ℚ) : ℚ :=
  let lo := match cfg.minValue with
            | some a => max v a
            | none => v
  match cfg.maxValue with
  | some b => min lo b
  | none => lo

/-- Modelled from the spec: `Solver._check_input` rejects non-tabular input;
an `XMat` is tabular by construction, so the check passes
(`solver.py` is not among the sources). -/
def checkInput (_X : XMat) : Except Err Unit := .ok ()

/-- Modelled from the spec: `Solver._check_missing_value_mask` rejects a
fully missing (nonempty) row or column (`solver.py` is not among the
sources). -/
def checkMissingValueMask (X : XMat) : Except Err Unit :=
  if ((List.range X.rows).any fun i =>
        decide (0 < X.cols) && ((List.range X.cols).all fun j => missingOf X i j))
      || ((List.range X.cols).any fun j =>
        decide (0 < X.rows) && ((List.range X.rows).all fun i => missingOf X i j)) then
    .error .inputError
  else .ok ()

/-- Ascending comparison on per-column missing counts, index-stable. -/
def visitRel (cnt : Nat → Nat) (a b : Nat) : Prop :=
  cnt a < cnt b ∨ (cnt a = cnt b ∧ a ≤ b)

instance (cnt : Nat → Nat) : DecidableRel (visitRel cnt) := fun a b => by
  unfold visitRel; infer_instance

/-- `np.argsort(cnt)` over `0..n-1`, ascending (stable). -/
def argsortAsc (cnt : Nat → Nat) (n : Nat) : List Nat :=
  List.insertionSort (visitRel cnt) (List.range n)

/-- `MICE.get_visit_indices`. -/
def getVisitIndices (cfg : Config) (mask : Mask) (rows cols : Nat) :
    Except Err (List Nat) :=
  if cfg.visitSequence = "roman" then .ok (List.range cols)
  else if cfg.visitSequence = "arabic" then .ok (List.range cols).reverse
  else if cfg.visitSequence = "monotone" then
    .ok (argsortAsc (colMissingCount mask rows) cols).reverse
  else if cfg.visitSequence = "revmonotone" then
    .ok (argsortAsc (colMissingCount mask rows) cols)
  else .error .configurationError

/-- Pointwise update of a `Nat`-indexed function. -/
def updAt (f : Nat → ℚ) (k : Nat) (v : ℚ) : Nat → ℚ :=
  fun x => if x = k then v else f x

/-- Write the scalar `v` into the rows `rowsW` of column `col`. -/
def writeColCells (Xf : Mat) (rowsW : List Nat) (col : Nat) (v : ℚ) : Mat :=
  fun i j => if j = col ∧ i ∈ rowsW then v else Xf i j

/-- `np.random.choice(vals, n)`: `n` independent uniform draws from `vals`. -/
def drawChoices {M : Type} (ext : ExtOps M) (vals : List ℚ) :
    Nat → Rng → List ℚ × Rng
  | 0, rng => ([], rng)
  | n + 1, rng =>
    let pick := ext.choice vals.length rng
    let rest := drawChoices ext vals n pick.2
    (vals.getD pick.1 0 :: rest.1, rest.2)

/-- State threaded through `MICE.initialize`. -/
structure InitSt where
  Xf : Mat
  initVals : Nat → ℚ
  rng : Rng

/-- One column of `MICE.initialize`: fill the missing cells of `col` from
its observed values by the configured method, record the init value. -/
def initFillCol {M : Type} (ext : ExtOps M) (cfg : Config) (mask : Mask)
    (rows : Nat) (st : InitSt) (col : Nat) : Except Err InitSt :=
  let missR := missingRows mask rows col
  if 0 < missR.length then
    let obsR := observedRows mask rows col
    let obsVals := obsR.map (fun i => st.Xf i col)
    if cfg.initFillMethod = "mean" then
      let v := listMean obsVals
      .ok ⟨writeColCells st.Xf missR col v, updAt st.initVals col v, st.rng⟩
    else if cfg.initFillMethod = "median" then
      let v := listMedian obsVals
      .ok ⟨writeColCells st.Xf missR col v, updAt st.initVals col v, st.rng⟩
    else if cfg.initFillMethod = "random" then
      let draws := drawChoices ext obsVals missR.length st.rng
      -- `self.column_init_values[col_idx] = fill_values` assigns the whole
      -- sample array into a scalar slot; numpy accepts this only when the
      -- array has exactly one element and raises ValueError otherwise.
      if draws.1.length = 1 then
        let v := draws.1.getD 0 0
        .ok ⟨writeColCells st.Xf missR col v, updAt st.initVals col v, draws.2⟩
      else .error .valueError
    else .error .configurationError
  else .ok st

/-- The `for col_idx in visit_indices` loop of `MICE.initialize`. -/
def initFillLoop {M : Type} (ext : ExtOps M) (cfg : Config) (mask : Mask)
    (rows : Nat) : List Nat → InitSt → Except Err InitSt
  | [], st => .ok st
  | c :: rest, st =>
    match initFillCol ext cfg mask rows st c with
    | .ok st' => initFillLoop ext cfg mask rows rest st'
    | .error e => .error e

/-- State threaded through the imputation rounds. `model` is the current
state of the single shared `self.model` object; `fits` is the ghost trace
of its state after each `fit` call. -/
structure RunSt (M : Type) where
  Xf : Mat
  rng : Rng
  model : M
  fits : List M

/-- Predictor columns for a target column: all other columns, unless the
table is wider than `n_nearest_columns`, in which case the
correlation-weighted random subset is drawn by the external selector from
the round-start matrix. -/
def otherColumnIndices {M : Type} (ext : ExtOps M) (cfg : Config)
    (cols col : Nat) (roundStartXf : Mat) (rng : Rng) : List Nat × Rng :=
  match cfg.nNearestColumns with
  | none => (List.range col ++ (List.range cols).drop (col + 1), rng)
  | some cap =>
    if cols ≤ cap then (List.range col ++ (List.range cols).drop (col + 1), rng)
    else ext.selectOther cols col roundStartXf rng

/-- Ascending comparison on the distances list, index-stable. -/
def distRel (ds : List ℚ) (a b : Nat) : Prop :=
  ds.getD a 0 < ds.getD b 0 ∨ (ds.getD a 0 = ds.getD b 0 ∧ a ≤ b)

instance (ds : List ℚ) : DecidableRel (distRel ds) := fun a b => by
  unfold distRel; infer_instance

/-- Indices of the `k` smallest entries of `ds`
(`np.argpartition(D, k)[:k]`; within the selection, order is
implementation-defined, modelled here as distance-then-index order). -/
def kSmallest (ds : List ℚ) (k : Nat) : List Nat :=
  (List.insertionSort (distRel ds) (List.range ds.length)).take k

/-- One `np.random.choice(neighbor_index)` per missing row. -/
def pickNeighbors {M : Type} (ext : ExtOps M) :
    List (List Nat) → Rng → List Nat × Rng
  | [], rng => ([], rng)
  | nb :: rest, rng =>
    let pick := ext.choice nb.length rng
    let others := pickNeighbors ext rest pick.2
    (nb.getD pick.1 0 :: others.1, others.2)

/-- `np.random.normal(mus, sigmas)` elementwise, where each sigma is
`np.sqrt` of the predicted variance (folded into `normalFromDist`). -/
def normalDraws {M : Type} (ext : ExtOps M) :
    List ℚ → List ℚ → Rng → List ℚ × Rng
  | [], _, rng => ([], rng)
  | mu :: mus, s2s, rng =>
    let d := ext.normalFromDist mu (s2s.headD 0) rng
    let rest := normalDraws ext mus s2s.tail d.2
    (d.1 :: rest.1, rest.2)

/-- `X_filled[missing_row_mask, col] = vals`; numpy raises on a length
mismatch between the value array and the masked selection. -/
def columnAssignChecked (Xf : Mat) (missR : List Nat) (col : Nat)
    (vals : List ℚ) : Except Err Mat :=
  if vals.length = missR.length then
    .ok (fun i j => if j = col ∧ i ∈ missR then vals.getD (missR.indexOf i) 0 else Xf i j)
  else .error .valueError

/-- The body of the `for col_idx in visit_indices` loop of
`MICE.perform_imputation_round`: skip columns with no missing data, fit the
shared model on the observed rows, then impute the missing rows by PMM or
by a posterior-predictive draw.  An unrecognized `impute_type` reaches
`self.clip(imputed_values)` with `imputed_values` unbound
(Python `UnboundLocalError`). -/
def imputeColumn {M : Type} (ext : ExtOps M) (cfg : Config) (rows cols : Nat)
    (mask : Mask) (roundStartXf : Mat) (st : RunSt M) (col : Nat) :
    Except Err (RunSt M) :=
  let missR := missingRows mask rows col
  if 0 < missR.length then
    let obsR := observedRows mask rows col
    let colObs := obsR.map (fun i => st.Xf i col)
    let sel := otherColumnIndices ext cfg cols col roundStartXf st.rng
    let others := sel.1
    let m1 := ext.fit st.model (subMatrix st.Xf obsR others) colObs
    -- `self.fitted_models[round_index][col_idx] = brr` stores a reference
    -- to the same shared object into the slot; the slot itself carries no
    -- data (see `complete`), so only the ghost trace records this state.
    if cfg.imputeType = "pmm" then
      let predM := ext.predict m1 (subMatrix st.Xf missR others) true sel.2
      let predO := ext.predict m1 (subMatrix st.Xf obsR others) false predM.2
      let k := min cfg.nPmmNeighbors (predO.1.length - 1)
      if 0 < k then
        let knn := predM.1.map (fun p => kSmallest (predO.1.map (fun q => |p - q|)) k)
        let picks := pickNeighbors ext knn predO.2
        if picks.1.all (fun ix => ix < colObs.length) then
          let vals := (picks.1.map (fun ix => colObs.getD ix 0)).map (clip cfg)
          match columnAssignChecked st.Xf missR col vals with
          | .ok Xf' => .ok ⟨Xf', picks.2, m1, st.fits ++ [m1]⟩
          | .error e => .error e
        else .error .indexError
      else .error .valueError
    else if cfg.imputeType = "col" then
      let dist := ext.predictDist m1 (subMatrix st.Xf missR others)
      if dist.1.length = dist.2.length then
        let draws := normalDraws ext dist.1 dist.2 sel.2
        let vals := draws.1.map (clip cfg)
        match columnAssignChecked st.Xf missR col vals with
        | .ok Xf' => .ok ⟨Xf', draws.2, m1, st.fits ++ [m1]⟩
        | .error e => .error e
      else .error .valueError
    else .error .unboundLocal
  else .ok st

/-- The column loop of `MICE.perform_imputation_round`. -/
def columnsLoop {M : Type} (ext : ExtOps M) (cfg : Config) (rows cols : Nat)
    (mask : Mask) (roundStartXf : Mat) :
    List Nat → RunSt M → Except Err (RunSt M)
  | [], st => .ok st
  | c :: rest, st =>
    match imputeColumn ext cfg rows cols mask roundStartXf st c with
    | .ok st' => columnsLoop ext cfg rows cols mask roundStartXf rest st'
    | .error e => .error e

/-- `MICE.perform_imputation_round`: one round-robin pass over the columns
in visit order.  The round-start matrix is snapshotted for the wide-table
correlation selector. -/
def performImputationRound {M : Type} (ext : ExtOps M) (cfg : Config)
    (rows cols : Nat) (mask : Mask) (visit : List Nat) (st : RunSt M) :
    Except Err (RunSt M) :=
  columnsLoop ext cfg rows cols mask st.Xf visit st

/-- Accumulator of the round loop: run state, `results_list`, and the ghost
list of end-of-round working matrices. -/
structure RoundsAcc (M : Type) where
  st : RunSt M
  results : List (List ℚ)
  roundMats : List Mat

/-- The `for m in range(n_burn_in + n_imputations)` loop of
`MICE.multiple_imputations`: run a round, and for post-burn-in rounds
append `X_filled[missing_mask]` to `results_list`. -/
def roundsLoop {M : Type} (ext : ExtOps M) (cfg : Config) (rows cols : Nat)
    (mask : Mask) (visit : List Nat) :
    Nat → Nat → RoundsAcc M → Except Err (RoundsAcc M)
  | 0, _, acc => .ok acc
  | rem + 1, m, acc =>
    match performImputationRound ext cfg rows cols mask visit acc.st with
    | .ok st' =>
      let results' := if cfg.nBurnIn ≤ m then
          acc.results ++ [maskFlatten mask rows cols st'.Xf]
        else acc.results
      roundsLoop ext cfg rows cols mask visit rem (m + 1)
        ⟨st', results', acc.roundMats ++ [st'.Xf]⟩
    | .error e => .error e

/-- `X.copy()` flattened to a total matrix; the placeholder behind a NaN
cell is never read before that cell is initialized. -/
def baseMat (X : XMat) : Mat := fun i j => (X.entry i j).getD 0

/-- The state available when `MICE.multiple_imputations` reaches its round
loop. -/
structure PreSt (M : Type) where
  mask : Mask
  visit : List Nat
  st : RunSt M
  initVals : Nat → ℚ

/-- Everything `MICE.multiple_imputations` does before any imputation round
executes: input checks, visit-order computation, and initial fill. -/
def miPreRounds {M : Type} (ext : ExtOps M) (cfg : Config) (m0 : M)
    (rng0 : Rng) (X : XMat) : Except Err (PreSt M) :=
  match checkInput X with
  | .error e => .error e
  | .ok _ =>
    match checkMissingValueMask X with
    | .error e => .error e
    | .ok _ =>
      match getVisitIndices cfg (missingOf X) X.rows X.cols with
      | .error e => .error e
      | .ok visit =>
        match initFillLoop ext cfg (missingOf X) X.rows visit
            ⟨baseMat X, fun _ => 0, rng0⟩ with
        | .error e => .error e
        | .ok ist => .ok ⟨missingOf X, visit, ⟨ist.Xf, ist.rng, m0, []⟩, ist.initVals⟩

/-- Result of `MICE.multiple_imputations`, with ghost fields. -/
structure MIResult (M : Type) where
  results : List (List ℚ)
  mask : Mask
  roundMats : List Mat
  visit : List Nat
  initVals : Nat → ℚ
  finalModel : M
  fits : List M

/-- `MICE.multiple_imputations`. -/
def multipleImputations {M : Type} (ext : ExtOps M) (cfg : Config) (m0 : M)
    (rng0 : Rng) (X : XMat) : Except Err (MIResult M) :=
  match miPreRounds ext cfg m0 rng0 X with
  | .error e => .error e
  | .ok ps =>
    match roundsLoop ext cfg X.rows X.cols ps.mask ps.visit
        (cfg.nBurnIn + cfg.nImputations) 0 ⟨ps.st, [], []⟩ with
    | .error e => .error e
    | .ok acc =>
      .ok ⟨acc.results, ps.mask, acc.roundMats, ps.visit, ps.initVals,
           acc.st.model, acc.st.fits⟩

/-- Result of `MICE.complete`, with ghost fields.  `fittedModels` is the
ensemble: every slot holds a reference (`Unit`) to the one shared model
object. -/
structure CompleteResult (M : Type) where
  out : Nat → Nat → Option ℚ
  mask : Mask
  roundMats : List Mat
  visit : List Nat
  initVals : Nat → ℚ
  finalModel : M
  fits : List M
  fittedModels : List (List Unit)
  results : List (List ℚ)

instance {M : Type} [Inhabited M] : Inhabited (CompleteResult M) :=
  ⟨⟨fun _ _ => none, fun _ _ => false, [], [], fun _ => 0, default, [], [], []⟩⟩

instance {M : Type} [Inhabited M] : Inhabited (RunSt M) :=
  ⟨⟨fun _ _ => 0, 0, default, []⟩⟩

instance {M : Type} [Inhabited M] : Inhabited (PreSt M) :=
  ⟨⟨fun _ _ => false, [], default, fun _ => 0⟩⟩

/-- `MICE.complete`: build the ensemble of aliased model references, run
`multiple_imputations`, and overwrite the missing cells of a copy of the
input with the per-cell mean of the collected samples. -/
def complete {M : Type} (ext : ExtOps M) (cfg : Config) (m0 : M) (rng0 : Rng)
    (X : XMat) : Except Err (CompleteResult M) :=
  let ensemble :=
    List.replicate (cfg.nBurnIn + cfg.nImputations) (List.replicate X.cols ())
  match multipleImputations ext cfg m0 rng0 X with
  | .error e => .error e
  | .ok r =>
    .ok ⟨maskAssign X r.mask (meanAxis0 r.results), r.mask, r.roundMats,
         r.visit, r.initVals, r.finalModel, r.fits, ensemble, r.results⟩

/-- `MICE.__init__` calls `np.random.seed(seed)` when a seed is given. -/
def seededRng (cfg : Config) (rng0 : Rng) : Rng :=
  match cfg.seed with
  | some s => s
  | none => rng0

/-- Construct a `MICE` instance with configuration `cfg` (seeding the global
random stream) and call `complete` on `X`. -/
def miceComplete {M : Type} (ext : ExtOps M) (cfg : Config) (m0 : M)
    (rng0 : Rng) (X : XMat) : Except Err (CompleteResult M) :=
  complete ext cfg m0 (seededRng cfg rng0) X

/-- The persisted instance state that `MICE.complete_row` reads:
`self.fitted_models` (slots are references to the one shared model object),
`self.visit_indices`, `self.column_init_values`, `self.seed`, and the
current state of the shared model object itself. -/
structure MiceStored (M : Type) where
  fittedModels : Option (List (List Unit))
  visitIndices : Option (List Nat)
  columnInitValues : Option (Nat → ℚ)
  seed : Option Nat
  model : M

/-- A single input row; `none` entries model the NaN sentinel. -/
abbrev RowIn := List (Option ℚ)

/-- `np.isnan` on a row. -/
def rowMissingMask (X : RowIn) : Nat → Bool :=
  fun j => (X.getD j (some 0)).isNone

/-- The initialization loop of `MICE.complete_row`: seed each missing entry
from the stored per-column init values. -/
def rowInitLoop (mask : Nat → Bool) (iv : Nat → ℚ) :
    List Nat → (Nat → ℚ) → (Nat → ℚ)
  | [], Xf => Xf
  | c :: rest, Xf =>
    rowInitLoop mask iv rest (if mask c then updAt Xf c (iv c) else Xf)

/-- The column loop of one replay round in `MICE.complete_row`.
`brr = fitted_models[m][col_idx]` dereferences an ensemble slot; every slot
references the single shared model object (see `complete`), so the model
used is the current (final) state `stModel` for every round and column. -/
def rowImputeColsLoop {M : Type} (ext : ExtOps M) (cfg : Config) (stModel : M)
    (mask : Nat → Bool) (nCols : Nat) :
    List Nat → (Nat → ℚ) → Rng → (Nat → ℚ) × Rng
  | [], Xf, rng => (Xf, rng)
  | c :: rest, Xf, rng =>
    if mask c then
      let others := List.range c ++ (List.range nCols).drop (c + 1)
      let dist := ext.predictDist stModel [others.map Xf]
      let d := ext.normalFromDist (dist.1.getD 0 0) (dist.2.getD 0 0) rng
      rowImputeColsLoop ext cfg stModel mask nCols rest
        (updAt Xf c (clip cfg d.1)) d.2
    else rowImputeColsLoop ext cfg stModel mask nCols rest Xf rng

/-- The replay round loop of `MICE.complete_row`, collecting the missing
entries after each post-burn-in round. -/
def rowRoundsLoop {M : Type} (ext : ExtOps M) (cfg : Config) (stModel : M)
    (mask : Nat → Bool) (nCols : Nat) (visit : List Nat) :
    Nat → Nat → (Nat → ℚ) → Rng → List (List ℚ) →
    (Nat → ℚ) × Rng × List (List ℚ)
  | 0, _, Xf, rng, res => (Xf, rng, res)
  | rem + 1, m, Xf, rng, res =>
    let step := rowImputeColsLoop ext cfg stModel mask nCols visit Xf rng
    let res' := if cfg.nBurnIn ≤ m then
        res ++ [((List.range nCols).filter mask).map step.1]
      else res
    rowRoundsLoop ext cfg stModel mask nCols visit rem (m + 1) step.1 step.2 res'

/-- `MICE.complete_row`: validation, init fill from stored column values,
seeding, replay of the rounds with the persisted models, and averaging of
the post-burn-in draws per missing entry. -/
def completeRow {M : Type} (ext : ExtOps M) (cfg : Config) (st : MiceStored M)
    (X : RowIn) (passed : Option (List (List Unit))) (seedArg : Option Nat)
    (rng0 : Rng) : Except Err RowIn :=
  let fm := match passed with
            | none => st.fittedModels
            | some p => some p
  match fm with
  | none => .error .stateError    -- "No saved fitted models!"
  | some _ =>
    -- the input is a single row by representation, so `X.ndim != 1` cannot
    -- fire; the length check reads `self.fitted_models.shape[1]`, which is
    -- an AttributeError when no instance models are stored.
    match st.fittedModels with
    | none => .error .attributeError
    | some sfm =>
      if X.length ≠ (sfm.headD []).length then .error .dimensionError
      else if cfg.imputeType ≠ "col" then .error .configurationError
      else
        let mask := rowMissingMask X
        let missIdx := (List.range X.length).filter mask
        if missIdx.length = 0 then .ok X
        else
          match st.visitIndices with
          | none => .error .stateError    -- "No saved visit indices!"
          | some visit =>
            match st.columnInitValues with
            | none => .error .stateError  -- "No saved initial column values!"
            | some iv =>
              let Xf0 : Nat → ℚ := fun j => (X.getD j (some 0)).getD 0
              let Xf1 := rowInitLoop mask iv visit Xf0
              let rng : Rng :=
                match seedArg with
                | some s => s
                | none =>
                  match st.seed with
                  | some s => s
                  | none => rng0
              let run := rowRoundsLoop ext cfg st.model mask X.length visit
                  (cfg.nBurnIn + cfg.nImputations) 0 Xf1 rng []
              let avg := meanAxis0 run.2.2
              .ok ((List.range X.length).map (fun j =>
                if mask j then some (avg.getD (missIdx.indexOf j) 0)
                else X.getD j none))

instance {α β : Type} [DecidableEq α] [DecidableEq β] : DecidableEq (Except α β) :=
  fun a b =>
    match a, b with
    | .ok x, .ok y =>
      if h : x = y then .isTrue (by rw [h])
      else .isFalse (by intro hc; cases hc; exact h rfl)
    | .error x, .error y =>
      if h : x = y then .isTrue (by rw [h])
      else .isFalse (by intro hc; cases hc; exact h rfl)
    | .ok _, .error _ => .isFalse (by intro hc; cases hc)
    | .error _, .ok _ => .isFalse (by intro hc; cases hc)

/-! ### Projections used to state theorems -/

/-- Extract the payload of a successful computation. -/
def exOk {α : Type} [Inhabited α] : Except Err α → α
  | .ok a => a
  | .error _ => default

/-- The error of a failed computation, if any. -/
def runErr {α : Type} : Except Err α → Option Err
  | .ok _ => none
  | .error e => some e

/-- The output matrix of `complete`, when the call succeeds. -/
def completeOut {M : Type} : Except Err (CompleteResult M) → Option (Nat → Nat → Option ℚ)
  | .ok r => some r.out
  | .error _ => none

/-- The visit order computed by `get_visit_indices`, when it succeeds. -/
def visitOf (cfg : Config) (mask : Mask) (rows cols : Nat) : List Nat :=
  match getVisitIndices cfg mask rows cols with
  | .ok v => v
  | .error _ => []

/-- The originally observed values of column `j` of the input matrix. -/
def obsValsOrig (X : XMat) (j : Nat) : List ℚ :=
  (observedRows (missingOf X) X.rows j).map (fun i => (X.entry i j).getD 0)

/-- A working matrix agrees with the base matrix on every observed cell. -/
def obsAgrees (mask : Mask) (base Xf : Mat) : Prop :=
  ∀ i j, mask i j = false → Xf i j = base i j

/-! ### Concrete instances used by witnesses and counterexamples -/

/-- A concrete model state: the list of `(X, y)` training sets passed to
`fit`, in order.  Distinct fits are distinguishable by trace length. -/
abbrev TraceModel := List (List (List ℚ) × List ℚ)

/-- Concrete collaborators for posterior-predictive (`"col"`) runs. -/
def extCol : ExtOps TraceModel where
  fit m x y := m ++ [(x, y)]
  predict _ x _ rng := (x.map (fun r => r.headD 0), rng)
  predictDist _ x := (x.map (fun r => r.headD 0), x.map (fun _ => 1))
  normalFromDist mu s2 rng := (mu + s2 * rng, rng + 1)
  choice n rng := (rng % n, rng + 1)
  selectOther _ _ _ rng := ([], rng)

/-- Stochastic point prediction of the concrete PMM model, as a function of
the random state. -/
def pmmPredVal (rng : Rng) : ℚ := if rng = 1 then 2 else 6

/-- Concrete collaborators for predictive-mean-matching (`"pmm"`) runs. -/
def extPmm : ExtOps Unit where
  fit _ _ _ := ()
  predict _ x draw rng :=
    if draw then (x.map (fun _ => pmmPredVal rng), rng + 1)
    else (x.map (fun r => r.headD 0), rng)
  predictDist _ x := (x.map (fun r => r.headD 0), x.map (fun _ => 0))
  normalFromDist mu s2 rng := (mu + s2, rng + 1)
  choice n rng := (rng % n, rng + 1)
  selectOther _ _ _ rng := ([], rng)

/-- 3×2 matrix with a single missing cell at row 1, column 1. -/
def Xone : XMat where
  rows := 3
  cols := 2
  entry i j :=
    if i = 0 ∧ j = 0 then some 1
    else if i = 0 ∧ j = 1 then some 1
    else if i = 1 ∧ j = 0 then some 2
    else if i = 1 ∧ j = 1 then none
    else if i = 2 ∧ j = 0 then some 5
    else if i = 2 ∧ j = 1 then some 5
    else none

/-- A base configuration: the constructor defaults with a small number of
rounds. -/
def cfgBase : Config where
  visitSequence := "monotone"
  nImputations := 1
  nBurnIn := 1
  nPmmNeighbors := 5
  imputeType := "col"
  nNearestColumns := none
  initFillMethod := "mean"
  minValue := none
  maxValue := none
  seed := none

/-- A missing cell of the completed matrix, when the call succeeds. -/
def completeCell {M : Type} : Except Err (CompleteResult M) → Nat → Nat → Option ℚ
  | .ok r, i, j => r.out i j
  | .error _, _, _ => none

/-- PMM configuration with two sampling rounds and no burn-in. -/
def cfgPmm2 : Config := { cfgBase with imputeType := "pmm", nBurnIn := 0, nImputations := 2 }

/-- PMM configuration with one round and a lower clipping bound. -/
def cfgPmmClip : Config :=
  { cfgBase with imputeType := "pmm", nBurnIn := 0, nImputations := 1, minValue := some 2 }

/-- A configuration carrying the unrecognized impute mode "ppm" (the typo in
the constructor docstring of `mice.py`). -/
def cfgBad : Config := { cfgBase with imputeType := "ppm" }

/-- Two posterior-predictive sampling rounds, no burn-in. -/
def cfgC2 : Config := { cfgBase with nBurnIn := 0, nImputations := 2 }

/-- 2×2 matrix with no missing entry. -/
def Xfull : XMat := ⟨2, 2, fun i j => if i < 2 ∧ j < 2 then some ((i : ℚ) + j) else none⟩

/-- Instance state with nothing persisted. -/
def storedNone : MiceStored TraceModel := ⟨none, none, none, none, []⟩

/-- Instance state as left by a two-round, two-column `complete` run. -/
def storedOk : MiceStored TraceModel :=
  ⟨some [[(), ()], [(), ()]], some [1, 0], some (fun _ => 3), some 4, []⟩

/-- The posterior-predictive run used by the C1/C8 witnesses. -/
def c1run : Except Err (CompleteResult TraceModel) := miceComplete extCol cfgBase [] 1 Xone

/-- Its successful result. -/
def c1res : CompleteResult TraceModel := exOk c1run

/-- A configuration with a fixed seed. -/
def cfgSeeded : Config := { cfgBase with seed := some 4 }

/-- The two-round PMM run used for C3. -/
def c3run : Except Err (CompleteResult Unit) := miceComplete extPmm cfgPmm2 () 1 Xone

/-- Its successful result. -/
def c3res : CompleteResult Unit := exOk c3run

/-- The two-round posterior-predictive run used for C2. -/
def c2res : CompleteResult TraceModel := exOk (miceComplete extCol cfgC2 [] 1 Xone)

/-! ### Visit-order lemmas -/

instance (cnt : Nat → Nat) : IsTotal Nat (visitRel cnt) :=
  ⟨by intro a b; unfold visitRel; omega⟩

instance (cnt : Nat → Nat) : IsTrans Nat (visitRel cnt) :=
  ⟨by intro a b c h1 h2; unfold visitRel at *; omega⟩

theorem argsortAsc_perm (cnt : Nat → Nat) (n : Nat) :
    (argsortAsc cnt n).Perm (List.range n) :=
  List.perm_insertionSort _ _

theorem argsortAsc_sorted (cnt : Nat → Nat) (n : Nat) :
    (argsortAsc cnt n).Pairwise (fun a b => cnt a ≤ cnt b) := by
  have h := List.sorted_insertionSort (visitRel cnt) (List.range n)
  exact h.imp (fun hab => by rcases hab with hlt | ⟨heq, _⟩ <;> omega)

/-- Any successful visit-order computation returns a permutation of the
column indices. -/
theorem getVisitIndices_perm (cfg : Config) (mask : Mask) (rows cols : Nat)
    (v : List Nat) (h : getVisitIndices cfg mask rows cols = .ok v) :
    v.Perm (List.range cols) := by
  unfold getVisitIndices at h
  split_ifs at h <;> cases h
  · exact List.Perm.refl _
  · exact (List.reverse_perm _)
  · exact (List.reverse_perm _).trans (argsortAsc_perm _ _)
  · exact argsortAsc_perm _ _

theorem visitOf_eq (cfg : Config) (mask : Mask) (rows cols : Nat) (v : List Nat)
    (h : getVisitIndices cfg mask rows cols = .ok v) :
    visitOf cfg mask rows cols = v := by
  unfold visitOf
  rw [h]

/-- A recognized strategy never fails. -/
theorem getVisitIndices_ok (cfg : Config) (mask : Mask) (rows cols : Nat)
    (h : cfg.visitSequence = "roman" ∨ cfg.visitSequence = "arabic" ∨
      cfg.visitSequence = "monotone" ∨ cfg.visitSequence = "revmonotone") :
    getVisitIndices cfg mask rows cols = .ok (visitOf cfg mask rows cols) := by
  rcases h with h | h | h | h <;> simp [getVisitIndices, visitOf, h]

/-- C7, main content: shape of the four visit orders. -/
theorem c7_visit_order (cfg : Config) (mask : Mask) (rows cols : Nat)
    (h : cfg.visitSequence = "roman" ∨ cfg.visitSequence = "arabic" ∨
      cfg.visitSequence = "monotone" ∨ cfg.visitSequence = "revmonotone") :
    getVisitIndices cfg mask rows cols = .ok (visitOf cfg mask rows cols) ∧
    (visitOf cfg mask rows cols).Perm (List.range cols) ∧
    (cfg.visitSequence = "roman" → visitOf cfg mask rows cols = List.range cols) ∧
    (cfg.visitSequence = "arabic" →
      visitOf cfg mask rows cols = (List.range cols).reverse) ∧
    (cfg.visitSequence = "monotone" →
      (visitOf cfg mask rows cols).Pairwise
        (fun a b => colMissingCount mask rows b ≤ colMissingCount mask rows a)) ∧
    (cfg.visitSequence = "revmonotone" →
      (visitOf cfg mask rows cols).Pairwise
        (fun a b => colMissingCount mask rows a ≤ colMissingCount mask rows b)) := by
  have hok := getVisitIndices_ok cfg mask rows cols h
  refine ⟨hok, getVisitIndices_perm cfg mask rows cols _ hok, ?_, ?_, ?_, ?_⟩
  · intro hr
    unfold visitOf getVisitIndices
    simp [hr]
  · intro hr
    unfold visitOf getVisitIndices
    simp [hr]
  · intro hr
    unfold visitOf getVisitIndices
    simp only [hr]
    norm_num
    exact List.pairwise_reverse.mpr
      ((argsortAsc_sorted (colMissingCount mask rows) cols).imp (fun hab => hab))
  · intro hr
    unfold visitOf getVisitIndices
    simp only [hr]
    norm_num
    exact argsortAsc_sorted (colMissingCount mask rows) cols

/-! ### Generic list lemmas -/

theorem getD_mem {α : Type} (l : List α) (n : Nat) (d : α) (h : n < l.length) :
    l.getD n d ∈ l := by
  rw [List.getD_eq_getElem?_getD, List.getElem?_eq_getElem h]
  exact List.getElem_mem h

/-! ### Write-step lemmas -/

theorem columnAssignChecked_ok {Xf : Mat} {missR : List Nat} {col : Nat}
    {vals : List ℚ} {Xf' : Mat}
    (h : columnAssignChecked Xf missR col vals = .ok Xf') :
    vals.length = missR.length ∧
    Xf' = fun i j =>
      if j = col ∧ i ∈ missR then vals.getD (missR.indexOf i) 0 else Xf i j := by
  unfold columnAssignChecked at h
  split_ifs at h with hlen
  · cases h
    exact ⟨hlen, rfl⟩

theorem clip_id {cfg : Config} (hmin : cfg.minValue = none)
    (hmax : cfg.maxValue = none) (v : ℚ) : clip cfg v = v := by
  simp [clip, hmin, hmax]

/-- Unclipped PMM imputation values are members of the observed column
values they index into. -/
theorem pmm_vals_mem {cfg : Config} (hmin : cfg.minValue = none)
    (hmax : cfg.maxValue = none) (colObs : List ℚ) (picks : List Nat)
    (hbound : picks.all (fun ix => ix < colObs.length) = true)
    {n : Nat} (hn : n < ((picks.map (fun ix => colObs.getD ix 0)).map (clip cfg)).length) :
    ((picks.map (fun ix => colObs.getD ix 0)).map (clip cfg)).getD n 0 ∈ colObs := by
  have hv := getD_mem _ n (0 : ℚ) hn
  rcases List.mem_map.mp hv with ⟨w, hw, hwv⟩
  rcases List.mem_map.mp hw with ⟨ix, hix, hixw⟩
  have hb : ix < colObs.length := by
    have := List.all_eq_true.mp hbound ix hix
    simpa using this
  rw [← hwv, ← hixw, clip_id hmin hmax]
  exact getD_mem _ _ 0 hb

/-- Mask-false cells of a column are not among its missing rows. -/
theorem not_mem_missingRows {mask : Mask} {rows col i : Nat}
    (h : mask i col = false) : i ∉ missingRows mask rows col := by
  intro hmem
  rcases List.mem_filter.mp hmem with ⟨-, hm⟩
  rw [h] at hm
  exact Bool.false_ne_true hm

theorem mem_missingRows {mask : Mask} {rows col i : Nat} :
    i ∈ missingRows mask rows col ↔ i < rows ∧ mask i col = true := by
  unfold missingRows
  rw [List.mem_filter, List.mem_range]

/-- One imputation step: every cell outside the missing rows of the target
column is untouched, and (for an unclipped PMM step) every written cell
receives one of the current values of the column's observed rows. -/
theorem imputeColumn_ok_write {M : Type} {ext : ExtOps M} {cfg : Config}
    {rows cols : Nat} {mask : Mask} {rsx : Mat} {st st' : RunSt M} {col : Nat}
    (h : imputeColumn ext cfg rows cols mask rsx st col = .ok st') :
    (∀ i j, ¬(j = col ∧ i ∈ missingRows mask rows col) → st'.Xf i j = st.Xf i j) ∧
    (cfg.imputeType = "pmm" → cfg.minValue = none → cfg.maxValue = none →
      ∀ i, i ∈ missingRows mask rows col →
        st'.Xf i col ∈ (observedRows mask rows col).map (fun r => st.Xf r col)) := by
  simp only [imputeColumn] at h
  split at h
  case isFalse hm =>
    cases h
    refine ⟨fun i j _ => rfl, fun _ _ _ i hi => ?_⟩
    rcases Nat.eq_zero_of_not_pos hm with h0
    rw [List.length_eq_zero.mp h0] at hi
    cases hi
  case isTrue hm =>
    split at h
    case isTrue hpmm =>
      split at h
      case isFalse => exact Except.noConfusion h
      case isTrue hk =>
        split at h
        case isFalse => exact Except.noConfusion h
        case isTrue hbound =>
          split at h
          case h_2 => exact Except.noConfusion h
          case h_1 Xf' hassign =>
            cases h
            rcases columnAssignChecked_ok hassign with ⟨hlen, hXf⟩
            constructor
            · intro i j hij
              simp only [hXf]
              exact if_neg hij
            · intro _ hmin hmax i hi
              simp only [hXf]
              have hcond : True ∧ i ∈ missingRows mask rows col := ⟨trivial, hi⟩
              rw [if_pos hcond]
              refine pmm_vals_mem hmin hmax _ _ hbound ?_
              rw [hlen]
              exact List.indexOf_lt_length.mpr hi
    case isFalse hpmm =>
      split at h
      case isFalse hcol =>
        exact Except.noConfusion h
      case isTrue hcol =>
        split at h
        case isFalse => exact Except.noConfusion h
        case isTrue hdlen =>
          split at h
          case h_2 => exact Except.noConfusion h
          case h_1 Xf' hassign =>
            cases h
            rcases columnAssignChecked_ok hassign with ⟨hlen, hXf⟩
            constructor
            · intro i j hij
              simp only [hXf]
              exact if_neg hij
            · intro hp
              exact absurd hp hpmm

theorem imputeColumn_skip {M : Type} (ext : ExtOps M) (cfg : Config)
    (rows cols : Nat) (mask : Mask) (rsx : Mat) (st : RunSt M) (col : Nat)
    (h : ¬ 0 < (missingRows mask rows col).length) :
    imputeColumn ext cfg rows cols mask rsx st col = .ok st := by
  simp only [imputeColumn]
  rw [if_neg h]

theorem mem_observedRows_mask_false {mask : Mask} {rows c r : Nat}
    (hr : r ∈ observedRows mask rows c) : mask r c = false := by
  rcases List.mem_filter.mp hr with ⟨-, hb⟩
  simpa using hb

/-! ### Loop invariants -/

/-- The column loop: observed cells keep their base values, untouched
columns stay untouched, and (unclipped PMM) every missing cell of a visited
column holds one of the column's originally observed values afterwards. -/
theorem columnsLoop_props {M : Type} (ext : ExtOps M) (cfg : Config)
    (rows cols : Nat) (mask : Mask) (rsx base : Mat) :
    ∀ (l : List Nat) (st st' : RunSt M),
      columnsLoop ext cfg rows cols mask rsx l st = .ok st' → l.Nodup →
      obsAgrees mask base st.Xf →
      obsAgrees mask base st'.Xf ∧
      (∀ i j, j ∉ l → st'.Xf i j = st.Xf i j) ∧
      (cfg.imputeType = "pmm" → cfg.minValue = none → cfg.maxValue = none →
        ∀ c ∈ l, ∀ i, i ∈ missingRows mask rows c →
          st'.Xf i c ∈ (observedRows mask rows c).map (fun r => base r c)) := by
  intro l
  induction l with
  | nil =>
    intro st st' h _ hag
    simp only [columnsLoop] at h
    cases h
    exact ⟨hag, fun _ _ _ => rfl, fun _ _ _ c hc => absurd hc (List.not_mem_nil c)⟩
  | cons c rest ih =>
    intro st st' h hnd hag
    simp only [columnsLoop] at h
    split at h
    case h_2 => exact Except.noConfusion h
    case h_1 st1 himp =>
      obtain ⟨hfr, hmem⟩ := imputeColumn_ok_write himp
      have hag1 : obsAgrees mask base st1.Xf := by
        intro i j hj
        have hnc : ¬(j = c ∧ i ∈ missingRows mask rows c) := by
          rintro ⟨hjc, hic⟩
          subst hjc
          exact (not_mem_missingRows hj) hic
        rw [hfr i j hnc]
        exact hag i j hj
      have hnd' : rest.Nodup := (List.nodup_cons.mp hnd).2
      have hcnot : c ∉ rest := (List.nodup_cons.mp hnd).1
      obtain ⟨hagF, hfrF, hmemF⟩ := ih st1 st' h hnd' hag1
      refine ⟨hagF, ?_, ?_⟩
      · intro i j hj
        have hj1 : j ∉ rest := fun hh => hj (List.mem_cons_of_mem _ hh)
        have hjc : j ≠ c := fun hh => hj (hh ▸ List.mem_cons_self _ _)
        rw [hfrF i j hj1, hfr i j (fun hcon => hjc hcon.1)]
      · intro hpmm hmin hmax c' hc' i hi
        rcases List.mem_cons.mp hc' with rfl | hc'rest
        · rw [hfrF i c' hcnot]
          have hm := hmem hpmm hmin hmax i hi
          have hmap : (observedRows mask rows c').map (fun r => st.Xf r c') =
              (observedRows mask rows c').map (fun r => base r c') :=
            List.map_congr_left
              (fun r hr => hag r c' (mem_observedRows_mask_false hr))
          rw [hmap] at hm
          exact hm
        · exact hmemF hpmm hmin hmax c' hc'rest i hi

/-- The round loop preserves observed cells and (unclipped PMM) records
only matrices whose missing cells hold originally observed column values. -/
theorem roundsLoop_props {M : Type} (ext : ExtOps M) (cfg : Config)
    (rows cols : Nat) (mask : Mask) (visit : List Nat) (base : Mat)
    (hnd : visit.Nodup) (hcov : ∀ j, j < cols → j ∈ visit) :
    ∀ (rem m : Nat) (acc accN : RoundsAcc M),
      roundsLoop ext cfg rows cols mask visit rem m acc = .ok accN →
      obsAgrees mask base acc.st.Xf →
      (∀ Mf ∈ acc.roundMats, obsAgrees mask base Mf) →
      (∀ Mf ∈ acc.roundMats, cfg.imputeType = "pmm" → cfg.minValue = none →
        cfg.maxValue = none → ∀ i j, i < rows → j < cols → mask i j = true →
          Mf i j ∈ (observedRows mask rows j).map (fun r => base r j)) →
      obsAgrees mask base accN.st.Xf ∧
      (∀ Mf ∈ accN.roundMats, obsAgrees mask base Mf) ∧
      (∀ Mf ∈ accN.roundMats, cfg.imputeType = "pmm" → cfg.minValue = none →
        cfg.maxValue = none → ∀ i j, i < rows → j < cols → mask i j = true →
          Mf i j ∈ (observedRows mask rows j).map (fun r => base r j)) := by
  intro rem
  induction rem with
  | zero =>
    intro m acc accN h hag hmats hmem
    simp only [roundsLoop] at h
    cases h
    exact ⟨hag, hmats, hmem⟩
  | succ rem ih =>
    intro m acc accN h hag hmats hmem
    simp only [roundsLoop] at h
    split at h
    case h_2 => exact Except.noConfusion h
    case h_1 st' hround =>
      have hcols : columnsLoop ext cfg rows cols mask acc.st.Xf visit acc.st = .ok st' := hround
      obtain ⟨hag', hfr', hmem'⟩ :=
        columnsLoop_props ext cfg rows cols mask acc.st.Xf base visit acc.st st'
          hcols hnd hag
      refine ih (m + 1) _ accN h hag' ?_ ?_
      · intro Mf hMf
        rcases List.mem_append.mp hMf with hMf | hMf
        · exact hmats Mf hMf
        · rcases List.mem_singleton.mp hMf with rfl
          exact hag'
      · intro Mf hMf hpmm hmin hmax i j hi hj hm
        rcases List.mem_append.mp hMf with hMf | hMf
        · exact hmem Mf hMf hpmm hmin hmax i j hi hj hm
        · rcases List.mem_singleton.mp hMf with rfl
          exact hmem' hpmm hmin hmax j (hcov j hj) i (mem_missingRows.mpr ⟨hi, hm⟩)

/-- Ghost bookkeeping of the round loop: the recorded matrices count the
rounds, and `results_list` is exactly the masked flattening of the
post-burn-in recorded matrices. -/
theorem roundsLoop_ghost {M : Type} (ext : ExtOps M) (cfg : Config)
    (rows cols : Nat) (mask : Mask) (visit : List Nat) :
    ∀ (rem m : Nat) (acc accN : RoundsAcc M),
      roundsLoop ext cfg rows cols mask visit rem m acc = .ok accN →
      acc.roundMats.length = m →
      acc.results = (acc.roundMats.drop cfg.nBurnIn).map (maskFlatten mask rows cols) →
      accN.roundMats.length = m + rem ∧
      accN.results = (accN.roundMats.drop cfg.nBurnIn).map (maskFlatten mask rows cols) := by
  intro rem
  induction rem with
  | zero =>
    intro m acc accN h hlen hres
    simp only [roundsLoop] at h
    cases h
    exact ⟨hlen, hres⟩
  | succ rem ih =>
    intro m acc accN h hlen hres
    simp only [roundsLoop] at h
    split at h
    case h_2 => exact Except.noConfusion h
    case h_1 st' _ =>
      have hlen' : (acc.roundMats ++ [st'.Xf]).length = m + 1 := by
        simp [hlen]
      by_cases hb : cfg.nBurnIn ≤ m
      · have hdrop : (acc.roundMats ++ [st'.Xf]).drop cfg.nBurnIn =
            acc.roundMats.drop cfg.nBurnIn ++ [st'.Xf] :=
          List.drop_append_of_le_length (by omega)
        rw [if_pos hb] at h
        have hstep := ih (m + 1) _ accN h hlen'
          (by simp only [hdrop, List.map_append, List.map_cons, List.map_nil, hres])
        rcases hstep with ⟨h1, h2⟩
        exact ⟨by omega, h2⟩
      · have hd1 : acc.roundMats.drop cfg.nBurnIn = [] :=
          List.drop_eq_nil_of_le (by omega)
        have hd2 : (acc.roundMats ++ [st'.Xf]).drop cfg.nBurnIn = [] :=
          List.drop_eq_nil_of_le (by simp only [List.length_append,
            List.length_singleton, hlen]; omega)
        rw [if_neg hb] at h
        have hstep := ih (m + 1) _ accN h hlen' (by rw [hd2, hres, hd1])
        rcases hstep with ⟨h1, h2⟩
        exact ⟨by omega, h2⟩

/-- Initialization writes only missing cells. -/
theorem initFillCol_frame {M : Type} {ext : ExtOps M} {cfg : Config}
    {mask : Mask} {rows : Nat} {st st' : InitSt} {col : Nat}
    (h : initFillCol ext cfg mask rows st col = .ok st') :
    ∀ i j, mask i j = false → st'.Xf i j = st.Xf i j := by
  intro i j hm
  have hnc : ¬(j = col ∧ i ∈ missingRows mask rows col) := by
    rintro ⟨hjc, hic⟩
    subst hjc
    exact (not_mem_missingRows hm) hic
  simp only [initFillCol] at h
  split at h
  case isFalse =>
    cases h
    rfl
  case isTrue =>
    split_ifs at h <;> cases h <;> (simp only [writeColCells]; rw [if_neg hnc])

theorem initFillLoop_frame {M : Type} {ext : ExtOps M} {cfg : Config}
    {mask : Mask} {rows : Nat} :
    ∀ {l : List Nat} {st st' : InitSt},
      initFillLoop ext cfg mask rows l st = .ok st' →
      ∀ i j, mask i j = false → st'.Xf i j = st.Xf i j := by
  intro l
  induction l with
  | nil =>
    intro st st' h i j hm
    simp only [initFillLoop] at h
    cases h
    rfl
  | cons c rest ih =>
    intro st st' h i j hm
    simp only [initFillLoop] at h
    split at h
    case h_2 => exact Except.noConfusion h
    case h_1 st1 hcol =>
      rw [ih h i j hm, initFillCol_frame hcol i j hm]

/-! ### Unpacking successful runs -/

theorem miPreRounds_ok_unpack {M : Type} {ext : ExtOps M} {cfg : Config}
    {m0 : M} {rng0 : Rng} {X : XMat} {ps : PreSt M}
    (h : miPreRounds ext cfg m0 rng0 X = .ok ps) :
    checkMissingValueMask X = .ok () ∧
    getVisitIndices cfg (missingOf X) X.rows X.cols = .ok ps.visit ∧
    ps.mask = missingOf X ∧
    ∃ ist : InitSt,
      initFillLoop ext cfg (missingOf X) X.rows ps.visit
        ⟨baseMat X, fun _ => 0, rng0⟩ = .ok ist ∧
      ps.st = ⟨ist.Xf, ist.rng, m0, []⟩ ∧ ps.initVals = ist.initVals := by
  simp only [miPreRounds, checkInput] at h
  split at h
  case h_1 => exact Except.noConfusion h
  case h_2 u hcm =>
    split at h
    case h_1 => exact Except.noConfusion h
    case h_2 visit hvis =>
      split at h
      case h_1 => exact Except.noConfusion h
      case h_2 ist hinit =>
        cases h
        cases u
        exact ⟨hcm, hvis, rfl, ist, hinit, rfl, rfl⟩

theorem multipleImputations_ok_unpack {M : Type} {ext : ExtOps M}
    {cfg : Config} {m0 : M} {rng0 : Rng} {X : XMat} {r : MIResult M}
    (h : multipleImputations ext cfg m0 rng0 X = .ok r) :
    ∃ (ps : PreSt M) (acc : RoundsAcc M),
      miPreRounds ext cfg m0 rng0 X = .ok ps ∧
      roundsLoop ext cfg X.rows X.cols ps.mask ps.visit
        (cfg.nBurnIn + cfg.nImputations) 0 ⟨ps.st, [], []⟩ = .ok acc ∧
      r.results = acc.results ∧ r.mask = ps.mask ∧ r.roundMats = acc.roundMats ∧
      r.visit = ps.visit ∧ r.finalModel = acc.st.model ∧ r.fits = acc.st.fits := by
  simp only [multipleImputations] at h
  split at h
  case h_1 => exact Except.noConfusion h
  case h_2 ps hps =>
    split at h
    case h_1 => exact Except.noConfusion h
    case h_2 acc hacc =>
      cases h
      exact ⟨ps, acc, hps, hacc, rfl, rfl, rfl, rfl, rfl, rfl⟩

theorem complete_ok_unpack {M : Type} {ext : ExtOps M} {cfg : Config}
    {m0 : M} {rng0 : Rng} {X : XMat} {res : CompleteResult M}
    (h : complete ext cfg m0 rng0 X = .ok res) :
    ∃ r : MIResult M,
      multipleImputations ext cfg m0 rng0 X = .ok r ∧
      res.out = maskAssign X r.mask (meanAxis0 r.results) ∧
      res.mask = r.mask ∧ res.roundMats = r.roundMats ∧
      res.results = r.results ∧ res.visit = r.visit ∧
      res.finalModel = r.finalModel ∧ res.fits = r.fits := by
  simp only [complete] at h
  split at h
  case h_1 => exact Except.noConfusion h
  case h_2 r hmi =>
    cases h
    exact ⟨r, hmi, rfl, rfl, rfl, rfl, rfl, rfl, rfl⟩

/-! ### C8 -/

/-- C8: throughout a completed run every cell observed in the input keeps
its original value — each per-column step writes only the missing rows of
its target column, so every end-of-round working matrix agrees with the
input on observed cells, and so does the final output. -/
theorem c8_observed_cells_preserved {M : Type} (ext : ExtOps M) (cfg : Config)
    (m0 : M) (rng0 : Rng) (X : XMat) (res : CompleteResult M)
    (h : miceComplete ext cfg m0 rng0 X = .ok res) :
    (∀ Mf ∈ res.roundMats, ∀ i j, missingOf X i j = false →
      Mf i j = (X.entry i j).getD 0) ∧
    (∀ i j, missingOf X i j = false → res.out i j = X.entry i j) := by
  have h' : complete ext cfg m0 (seededRng cfg rng0) X = .ok res := h
  obtain ⟨r, hmi, hout, hmask, hmats, hres, -, -, -⟩ := complete_ok_unpack h'
  obtain ⟨ps, acc, hps, hloop, hres2, hmask2, hmats2, -, -, -⟩ :=
    multipleImputations_ok_unpack hmi
  obtain ⟨hcm, hvis, hmaskps, ist, hinit, hstps, -⟩ := miPreRounds_ok_unpack hps
  have hagInit : obsAgrees (missingOf X) (baseMat X) ps.st.Xf := by
    rw [hstps]
    intro i j hm
    exact initFillLoop_frame hinit i j hm
  have hperm := getVisitIndices_perm cfg (missingOf X) X.rows X.cols ps.visit hvis
  have hnd : ps.visit.Nodup := (List.nodup_range X.cols).perm hperm.symm
  have hcov : ∀ j, j < X.cols → j ∈ ps.visit :=
    fun j hj => hperm.mem_iff.mpr (List.mem_range.mpr hj)
  rw [hmaskps] at hloop
  obtain ⟨-, hmatsAg, -⟩ :=
    roundsLoop_props ext cfg X.rows X.cols (missingOf X) ps.visit (baseMat X)
      hnd hcov _ _ _ _ hloop hagInit
      (by intro Mf hMf; cases hMf) (by intro Mf hMf; cases hMf)
  constructor
  · intro Mf hMf i j hm
    have hMf' : Mf ∈ acc.roundMats := by
      rw [hmats, hmats2] at hMf
      exact hMf
    exact hmatsAg Mf hMf' i j hm
  · intro i j hm
    rw [hout, hmask2, hmaskps]
    unfold maskAssign
    rw [if_neg]
    rintro ⟨-, -, hcon⟩
    rw [hm] at hcon
    exact Bool.false_ne_true hcon

/-- C8 witness: in the concrete run `c1run`, the observed cell (2, 1) of
every recorded round matrix and of the output keeps its input value. -/
theorem c8_witness :
    c1run = .ok c1res ∧ c1res.out 2 1 = Xone.entry 2 1 := by
  have hc1 : miceComplete extCol cfgBase [] 1 Xone = .ok c1res := rfl
  exact ⟨hc1,
    (c8_observed_cells_preserved extCol cfgBase [] 1 Xone c1res hc1).2 2 1 (by decide)⟩

/-! ### C3 -/

/-- C3 (amended): in a completed run with `impute_type = "pmm"` and no
clipping bounds, every value written into a missing cell during a round —
equivalently, every missing-cell entry of every end-of-round working
matrix — is one of the originally observed values of its column.  (The
final output averages these samples and its missing cells need not be
members; see the counterexample.) -/
theorem c3_pmm_round_values_observed {M : Type} (ext : ExtOps M) (cfg : Config)
    (m0 : M) (rng0 : Rng) (X : XMat) (res : CompleteResult M)
    (hmode : cfg.imputeType = "pmm") (hmin : cfg.minValue = none)
    (hmax : cfg.maxValue = none)
    (h : miceComplete ext cfg m0 rng0 X = .ok res) :
    ∀ Mf ∈ res.roundMats, ∀ i j, i < X.rows → j < X.cols →
      missingOf X i j = true → Mf i j ∈ obsValsOrig X j := by
  have h' : complete ext cfg m0 (seededRng cfg rng0) X = .ok res := h
  obtain ⟨r, hmi, hout, hmask, hmats, hres, -, -, -⟩ := complete_ok_unpack h'
  obtain ⟨ps, acc, hps, hloop, hres2, hmask2, hmats2, -, -, -⟩ :=
    multipleImputations_ok_unpack hmi
  obtain ⟨hcm, hvis, hmaskps, ist, hinit, hstps, -⟩ := miPreRounds_ok_unpack hps
  have hagInit : obsAgrees (missingOf X) (baseMat X) ps.st.Xf := by
    rw [hstps]
    intro i j hm
    exact initFillLoop_frame hinit i j hm
  have hperm := getVisitIndices_perm cfg (missingOf X) X.rows X.cols ps.visit hvis
  have hnd : ps.visit.Nodup := (List.nodup_range X.cols).perm hperm.symm
  have hcov : ∀ j, j < X.cols → j ∈ ps.visit :=
    fun j hj => hperm.mem_iff.mpr (List.mem_range.mpr hj)
  rw [hmaskps] at hloop
  obtain ⟨-, -, hmatsMem⟩ :=
    roundsLoop_props ext cfg X.rows X.cols (missingOf X) ps.visit (baseMat X)
      hnd hcov _ _ _ _ hloop hagInit
      (by intro Mf hMf; cases hMf) (by intro Mf hMf; cases hMf)
  intro Mf hMf i j hi hj hm
  have hMf' : Mf ∈ acc.roundMats := by
    rw [hmats, hmats2] at hMf
    exact hMf
  have hmem := hmatsMem Mf hMf' hmode hmin hmax i j hi hj hm
  simpa [obsValsOrig, baseMat] using hmem

/-- C3 counterexample: in the concrete two-round PMM run `c3run`, the final
output writes the value 3 — the mean of the two per-round samples 1 and
5 — into the missing cell (1, 1), and 3 is not one of the originally
observed values of column 1.  The claim as stated (membership also at the
final output's missing positions) is therefore false. -/
theorem c3_counterexample :
    completeCell c3run 1 1 = some 3 ∧ missingOf Xone 1 1 = true ∧
    (3 : ℚ) ∉ obsValsOrig Xone 1 := by
  refine ⟨?_, by decide, by decide⟩
  have d1 : |(2 : ℚ) - 1| = 1 := by norm_num
  have d2 : |(2 : ℚ) - 5| = 3 := by norm_num
  have d3 : |(6 : ℚ) - 1| = 5 := by norm_num
  have d4 : |(6 : ℚ) - 5| = 1 := by norm_num
  simp [d1, d2, d3, d4, c3run, completeCell, miceComplete, seededRng, complete,
    multipleImputations, miPreRounds, checkInput, checkMissingValueMask,
    getVisitIndices, argsortAsc, visitRel, colMissingCount, missingRows,
    observedRows, missingOf, Xone, cfgBase, cfgPmm2, extPmm, pmmPredVal,
    initFillLoop, initFillCol, listMean, updAt, writeColCells, baseMat, roundsLoop,
    performImputationRound, columnsLoop, imputeColumn, otherColumnIndices,
    subMatrix, kSmallest, distRel, pickNeighbors, clip, columnAssignChecked,
    maskFlatten, rowSeg, maskPos, meanAxis0, maskAssign, List.insertionSort,
    List.orderedInsert, List.range_succ, List.indexOf, List.findIdx, List.findIdx.go]
  norm_num

/-- C3 witness: the amended theorem applied to the concrete PMM run — the
first recorded round matrix holds an originally observed value of column 1
at the missing cell (1, 1). -/
theorem c3_witness :
    miceComplete extPmm cfgPmm2 () 1 Xone = .ok c3res ∧
    (c3res.roundMats.getD 0 (fun _ _ => 0)) 1 1 ∈ obsValsOrig Xone 1 := by
  have d1 : |(2 : ℚ) - 1| = 1 := by norm_num
  have d2 : |(2 : ℚ) - 5| = 3 := by norm_num
  have d3 : |(6 : ℚ) - 1| = 5 := by norm_num
  have d4 : |(6 : ℚ) - 5| = 1 := by norm_num
  have hc3 : miceComplete extPmm cfgPmm2 () 1 Xone = .ok c3res := by
    simp [d1, d2, d3, d4, c3res, exOk, c3run, miceComplete, seededRng, complete,
      multipleImputations, miPreRounds, checkInput, checkMissingValueMask,
      getVisitIndices, argsortAsc, visitRel, colMissingCount, missingRows,
      observedRows, missingOf, Xone, cfgBase, cfgPmm2, extPmm, pmmPredVal,
      initFillLoop, initFillCol, listMean, updAt, writeColCells, baseMat,
      roundsLoop, performImputationRound, columnsLoop, imputeColumn,
      otherColumnIndices, subMatrix, kSmallest, distRel, pickNeighbors, clip,
      columnAssignChecked, maskFlatten, rowSeg, maskPos, meanAxis0, maskAssign,
      List.insertionSort, List.orderedInsert, List.range_succ, List.indexOf,
      List.findIdx, List.findIdx.go]
  have hlen : c3res.roundMats.length = 2 := by
    simp [d1, d2, d3, d4, c3res, exOk, c3run, miceComplete, seededRng, complete,
      multipleImputations, miPreRounds, checkInput, checkMissingValueMask,
      getVisitIndices, argsortAsc, visitRel, colMissingCount, missingRows,
      observedRows, missingOf, Xone, cfgBase, cfgPmm2, extPmm, pmmPredVal,
      initFillLoop, initFillCol, listMean, updAt, writeColCells, baseMat,
      roundsLoop, performImputationRound, columnsLoop, imputeColumn,
      otherColumnIndices, subMatrix, kSmallest, distRel, pickNeighbors, clip,
      columnAssignChecked, maskFlatten, rowSeg, maskPos, meanAxis0, maskAssign,
      List.insertionSort, List.orderedInsert, List.range_succ, List.indexOf,
      List.findIdx, List.findIdx.go]
  refine ⟨hc3, ?_⟩
  have hmem : c3res.roundMats.getD 0 (fun _ _ => 0) ∈ c3res.roundMats :=
    getD_mem _ 0 _ (by rw [hlen]; omega)
  exact c3_pmm_round_values_observed extPmm cfgPmm2 () 1 Xone c3res rfl rfl rfl
    hc3 _ hmem 1 1 (by decide) (by decide) (by decide)

/-! ### Alignment of the masked flattening (for C1) -/

theorem range_split (n k : Nat) (hk : k < n) :
    List.range n = List.range k ++ k :: List.range' (k + 1) (n - (k + 1)) := by
  have h1 : List.range' 0 k 1 ++ List.range' (0 + 1 * k) (n - k) 1 =
      List.range' 0 ((n - k) + k) 1 := List.range'_append 0 k (n - k) 1
  have h2 : (n - k) + k = n := by omega
  have h3 : n - k = (n - (k + 1)) + 1 := by omega
  rw [h2] at h1
  rw [List.range_eq_range', ← h1, h3, List.range'_succ]
  simp [List.range_eq_range']

theorem flatMap_getD_split (f : Nat → List ℚ) (L1 L2 : List Nat) (a t : Nat)
    (ht : t < (f a).length) :
    ((L1 ++ a :: L2).flatMap f).getD ((L1.map (fun x => (f x).length)).sum + t) 0 =
      (f a).getD t 0 := by
  induction L1 with
  | nil =>
    simp only [List.nil_append, List.flatMap_cons, List.map_nil, List.sum_nil,
      Nat.zero_add]
    exact List.getD_append _ _ _ _ ht
  | cons b L1 ih =>
    simp only [List.cons_append, List.flatMap_cons, List.map_cons, List.sum_cons]
    rw [Nat.add_assoc]
    rw [List.getD_append_right _ _ _ _ (Nat.le_add_right _ _)]
    rw [Nat.add_sub_cancel_left]
    exact ih

theorem filter_range_split (p : Nat → Bool) (cols j : Nat) (hj : j < cols)
    (hpj : p j = true) :
    (List.range cols).filter p =
      ((List.range j).filter p) ++
        j :: ((List.range' (j + 1) (cols - (j + 1))).filter p) := by
  rw [range_split cols j hj, List.filter_append, List.filter_cons_of_pos hpj]

theorem rowSeg_getD (mask : Mask) (cols : Nat) (Xf : Mat) (i j : Nat)
    (hj : j < cols) (hm : mask i j = true) :
    (rowSeg mask cols Xf i).getD
      (((List.range j).filter (fun c => mask i c)).length) 0 = Xf i j := by
  unfold rowSeg
  rw [filter_range_split (fun c => mask i c) cols j hj hm]
  simp only [List.map_append, List.map_cons]
  rw [List.getD_append_right _ _ _ _ (by simp)]
  simp

theorem rowSeg_pos_lt (mask : Mask) (cols : Nat) (Xf : Mat) (i j : Nat)
    (hj : j < cols) (hm : mask i j = true) :
    ((List.range j).filter (fun c => mask i c)).length <
      (rowSeg mask cols Xf i).length := by
  unfold rowSeg
  rw [List.length_map, filter_range_split (fun c => mask i c) cols j hj hm]
  simp only [List.length_append, List.length_cons]
  omega

theorem maskPos_sum_eq (mask : Mask) (cols : Nat) (Xf : Mat) (i : Nat) :
    (List.range i).map (fun r => ((List.range cols).filter (fun c => mask r c)).length)
      = (List.range i).map (fun x => (rowSeg mask cols Xf x).length) :=
  List.map_congr_left (fun r _ => by simp [rowSeg])

theorem maskFlatten_getD (mask : Mask) (rows cols : Nat) (Xf : Mat) (i j : Nat)
    (hi : i < rows) (hj : j < cols) (hm : mask i j = true) :
    (maskFlatten mask rows cols Xf).getD (maskPos mask cols i j) 0 = Xf i j := by
  unfold maskFlatten maskPos
  rw [range_split rows i hi, maskPos_sum_eq mask cols Xf i]
  rw [flatMap_getD_split (rowSeg mask cols Xf) (List.range i) _ i _
    (rowSeg_pos_lt mask cols Xf i j hj hm)]
  exact rowSeg_getD mask cols Xf i j hj hm

theorem maskPos_lt (mask : Mask) (rows cols : Nat) (Xf : Mat) (i j : Nat)
    (hi : i < rows) (hj : j < cols) (hm : mask i j = true) :
    maskPos mask cols i j < (maskFlatten mask rows cols Xf).length := by
  unfold maskFlatten maskPos
  rw [range_split rows i hi, List.flatMap_append, List.flatMap_cons,
    List.length_append, List.length_append, List.length_flatMap,
    maskPos_sum_eq mask cols Xf i]
  have h1 := rowSeg_pos_lt mask cols Xf i j hj hm
  have h2 : List.map (List.length ∘ rowSeg mask cols Xf) (List.range i) =
      List.map (fun x => (rowSeg mask cols Xf x).length) (List.range i) := rfl
  rw [h2]
  omega

theorem meanAxis0_getD (ls : List (List ℚ)) (p : Nat)
    (hp : p < (ls.headD []).length) :
    (meanAxis0 ls).getD p 0 = listMean (ls.map (fun r => r.getD p 0)) := by
  unfold meanAxis0
  rw [List.getD_eq_getElem?_getD, List.getElem?_map, List.getElem?_range hp]
  rfl

/-! ### C1 -/

/-- C1: for every completed run with at least one imputation round, the
matrix returned by `complete` holds, at each missing position, the
arithmetic mean of that position's sampled values across the
`n_imputations` post-burn-in rounds, and the original input value at every
observed position. -/
theorem c1_output_mean_of_samples {M : Type} (ext : ExtOps M) (cfg : Config)
    (m0 : M) (rng0 : Rng) (X : XMat) (res : CompleteResult M)
    (h : miceComplete ext cfg m0 rng0 X = .ok res) (hn : 1 ≤ cfg.nImputations) :
    (res.roundMats.drop cfg.nBurnIn).length = cfg.nImputations ∧
    (∀ i j, i < X.rows → j < X.cols → missingOf X i j = true →
      res.out i j =
        some (listMean ((res.roundMats.drop cfg.nBurnIn).map (fun Mf => Mf i j)))) ∧
    (∀ i j, missingOf X i j = false → res.out i j = X.entry i j) := by
  have h' : complete ext cfg m0 (seededRng cfg rng0) X = .ok res := h
  obtain ⟨r, hmi, hout, hmask, hmats, hres, -, -, -⟩ := complete_ok_unpack h'
  obtain ⟨ps, acc, hps, hloop, hres2, hmask2, hmats2, -, -, -⟩ :=
    multipleImputations_ok_unpack hmi
  obtain ⟨hcm, hvis, hmaskps, ist, hinit, hstps, -⟩ := miPreRounds_ok_unpack hps
  rw [hmaskps] at hloop
  obtain ⟨hlen, hresEq⟩ :=
    roundsLoop_ghost ext cfg X.rows X.cols (missingOf X) ps.visit
      (cfg.nBurnIn + cfg.nImputations) 0 ⟨ps.st, [], []⟩ acc hloop rfl (by simp)
  have hlenT : acc.roundMats.length = cfg.nBurnIn + cfg.nImputations := by omega
  have hpostlen : (res.roundMats.drop cfg.nBurnIn).length = cfg.nImputations := by
    rw [hmats, hmats2, List.length_drop, hlenT]
    omega
  refine ⟨hpostlen, ?_, ?_⟩
  · intro i j hi hj hm
    rw [hout, hmask2, hmaskps]
    unfold maskAssign
    have hcond : i < X.rows ∧ j < X.cols ∧ missingOf X i j = true := ⟨hi, hj, hm⟩
    rw [if_pos hcond]
    have hResults : r.results =
        (acc.roundMats.drop cfg.nBurnIn).map (maskFlatten (missingOf X) X.rows X.cols) := by
      rw [hres2, hresEq]
    have hplen' : (acc.roundMats.drop cfg.nBurnIn).length = cfg.nImputations := by
      rw [List.length_drop, hlenT]
      omega
    rcases hpost : acc.roundMats.drop cfg.nBurnIn with _ | ⟨M0, rest⟩
    · rw [hpost] at hplen'
      simp at hplen'
      omega
    · have hhead : r.results.headD [] = maskFlatten (missingOf X) X.rows X.cols M0 := by
        rw [hResults, hpost]
        rfl
      have hp : maskPos (missingOf X) X.cols i j < (r.results.headD []).length := by
        rw [hhead]
        exact maskPos_lt (missingOf X) X.rows X.cols M0 i j hi hj hm
      rw [meanAxis0_getD r.results _ hp]
      congr 1
      rw [hResults, List.map_map, hmats, hmats2]
      congr 1
      apply List.map_congr_left
      intro Mf _
      exact maskFlatten_getD (missingOf X) X.rows X.cols Mf i j hi hj hm
  · intro i j hm
    rw [hout, hmask2, hmaskps]
    unfold maskAssign
    rw [if_neg]
    rintro ⟨-, -, hcon⟩
    rw [hm] at hcon
    exact Bool.false_ne_true hcon

/-- C1 witness: the concrete posterior-predictive run writes the mean of
the post-burn-in samples into the missing cell (1, 1). -/
theorem c1_witness :
    c1run = .ok c1res ∧ 1 ≤ cfgBase.nImputations ∧
    c1res.out 1 1 =
      some (listMean ((c1res.roundMats.drop cfgBase.nBurnIn).map (fun Mf => Mf 1 1))) := by
  have hc1 : miceComplete extCol cfgBase [] 1 Xone = .ok c1res := rfl
  exact ⟨hc1, by decide,
    (c1_output_mean_of_samples extCol cfgBase [] 1 Xone c1res hc1 (by decide)).2.1
      1 1 (by decide) (by decide) (by decide)⟩

/-! ### C5 -/

theorem maskFlatten_nil (mask : Mask) (rows cols : Nat) (Xf : Mat)
    (hF : ∀ i, i < rows → ∀ j, j < cols → mask i j = false) :
    maskFlatten mask rows cols Xf = [] := by
  unfold maskFlatten rowSeg
  rw [List.flatMap_eq_nil_iff]
  intro i hi
  have : (List.range cols).filter (fun j => mask i j) = [] := by
    rw [List.filter_eq_nil_iff]
    intro j hj
    simp [hF i (List.mem_range.mp hi) j (List.mem_range.mp hj)]
  rw [this]
  rfl

theorem meanAxis0_nil (ls : List (List ℚ)) (h : ∀ x ∈ ls, x = []) :
    meanAxis0 ls = [] := by
  unfold meanAxis0
  rcases ls with _ | ⟨x, rest⟩
  · rfl
  · rw [h x (List.mem_cons_self _ _)]
    rfl

theorem initFillLoop_skip {M : Type} (ext : ExtOps M) (cfg : Config)
    (mask : Mask) (rows : Nat) :
    ∀ (l : List Nat) (st : InitSt),
      (∀ c ∈ l, (missingRows mask rows c).length = 0) →
      initFillLoop ext cfg mask rows l st = .ok st := by
  intro l
  induction l with
  | nil => intro st _; rfl
  | cons c rest ih =>
    intro st h
    have hc : (missingRows mask rows c).length = 0 := h c (List.mem_cons_self _ _)
    have hcol : initFillCol ext cfg mask rows st c = .ok st := by
      simp only [initFillCol]
      rw [if_neg (by omega)]
    simp only [initFillLoop, hcol]
    exact ih st (fun c' hc' => h c' (List.mem_cons_of_mem _ hc'))

theorem columnsLoop_skip {M : Type} (ext : ExtOps M) (cfg : Config)
    (rows cols : Nat) (mask : Mask) (rsx : Mat) :
    ∀ (l : List Nat) (st : RunSt M),
      (∀ c ∈ l, (missingRows mask rows c).length = 0) →
      columnsLoop ext cfg rows cols mask rsx l st = .ok st := by
  intro l
  induction l with
  | nil => intro st _; rfl
  | cons c rest ih =>
    intro st h
    have hcol : imputeColumn ext cfg rows cols mask rsx st c = .ok st :=
      imputeColumn_skip ext cfg rows cols mask rsx st c
        (by have := h c (List.mem_cons_self _ _); omega)
    simp only [columnsLoop, hcol]
    exact ih st (fun c' hc' => h c' (List.mem_cons_of_mem _ hc'))

theorem roundsLoop_skip {M : Type} (ext : ExtOps M) (cfg : Config)
    (rows cols : Nat) (mask : Mask) (visit : List Nat)
    (hskip : ∀ c ∈ visit, (missingRows mask rows c).length = 0) :
    ∀ (rem m : Nat) (acc : RoundsAcc M),
      maskFlatten mask rows cols acc.st.Xf = [] →
      ∃ accN, roundsLoop ext cfg rows cols mask visit rem m acc = .ok accN ∧
        accN.st = acc.st ∧ ∀ x ∈ accN.results, x ∈ acc.results ∨ x = [] := by
  intro rem
  induction rem with
  | zero =>
    intro m acc _
    exact ⟨acc, rfl, rfl, fun x hx => Or.inl hx⟩
  | succ rem ih =>
    intro m acc hflat
    have hperf : performImputationRound ext cfg rows cols mask visit acc.st = .ok acc.st :=
      columnsLoop_skip ext cfg rows cols mask acc.st.Xf visit acc.st hskip
    obtain ⟨accN, hrec, hst, hresm⟩ := ih (m + 1)
      ⟨acc.st,
        if cfg.nBurnIn ≤ m then acc.results ++ [maskFlatten mask rows cols acc.st.Xf]
        else acc.results,
        acc.roundMats ++ [acc.st.Xf]⟩ hflat
    refine ⟨accN, ?_, by rw [hst], ?_⟩
    · simp only [roundsLoop, hperf]
      exact hrec
    · intro x hx
      rcases hresm x hx with hx' | hx'
      · by_cases hb : cfg.nBurnIn ≤ m
        · rw [if_pos hb] at hx'
          rcases List.mem_append.mp hx' with h1 | h1
          · exact Or.inl h1
          · rcases List.mem_singleton.mp h1 with rfl
            exact Or.inr hflat
        · rw [if_neg hb] at hx'
          exact Or.inl hx'
      · exact Or.inr hx'

/-- C5: an input matrix with no missing entry is completed unchanged. -/
theorem c5_no_missing_identity {M : Type} (ext : ExtOps M) (cfg : Config)
    (m0 : M) (rng0 : Rng) (X : XMat)
    (hstrat : cfg.visitSequence = "roman" ∨ cfg.visitSequence = "arabic" ∨
      cfg.visitSequence = "monotone" ∨ cfg.visitSequence = "revmonotone")
    (hnomiss : ∀ i, i < X.rows → ∀ j, j < X.cols → (X.entry i j).isSome = true) :
    completeOut (miceComplete ext cfg m0 rng0 X) = some X.entry := by
  have hmaskF : ∀ i, i < X.rows → ∀ j, j < X.cols → missingOf X i j = false := by
    intro i hi j hj
    have := hnomiss i hi j hj
    simp only [missingOf, Option.isNone]
    rcases hx : X.entry i j with _ | v
    · rw [hx] at this
      cases this
    · rfl
  have hcm : checkMissingValueMask X = .ok () := by
    unfold checkMissingValueMask
    rw [if_neg]
    intro hcond
    rcases (by simpa using hcond :
        (∃ i, i < X.rows ∧ 0 < X.cols ∧ ∀ j, j < X.cols → missingOf X i j = true) ∨
        (∃ j, j < X.cols ∧ 0 < X.rows ∧ ∀ i, i < X.rows → missingOf X i j = true))
      with ⟨i, hi, hcols, hall⟩ | ⟨j, hj, hrows, hall⟩
    · have h0 := hall 0 hcols
      rw [hmaskF i hi 0 hcols] at h0
      exact Bool.false_ne_true h0
    · have h0 := hall 0 hrows
      rw [hmaskF 0 hrows j hj] at h0
      exact Bool.false_ne_true h0
  have hvisOk := getVisitIndices_ok cfg (missingOf X) X.rows X.cols hstrat
  have hperm := getVisitIndices_perm cfg (missingOf X) X.rows X.cols _ hvisOk
  have hskip : ∀ c ∈ visitOf cfg (missingOf X) X.rows X.cols,
      (missingRows (missingOf X) X.rows c).length = 0 := by
    intro c hc
    have hcc : c < X.cols := List.mem_range.mp (hperm.mem_iff.mp hc)
    have : missingRows (missingOf X) X.rows c = [] := by
      unfold missingRows
      rw [List.filter_eq_nil_iff]
      intro i hi
      simp [hmaskF i (List.mem_range.mp hi) c hcc]
    rw [this]
    rfl
  have hinitskip := initFillLoop_skip ext cfg (missingOf X) X.rows
    (visitOf cfg (missingOf X) X.rows X.cols)
    ⟨baseMat X, fun _ => 0, seededRng cfg rng0⟩ hskip
  have hpre : miPreRounds ext cfg m0 (seededRng cfg rng0) X =
      .ok ⟨missingOf X, visitOf cfg (missingOf X) X.rows X.cols,
        ⟨baseMat X, seededRng cfg rng0, m0, []⟩, fun _ => 0⟩ := by
    simp only [miPreRounds, checkInput, hcm, hvisOk, hinitskip]
  have hflat : maskFlatten (missingOf X) X.rows X.cols (baseMat X) = [] :=
    maskFlatten_nil _ _ _ _ hmaskF
  obtain ⟨accN, hrounds, hstN, hresN⟩ :=
    roundsLoop_skip ext cfg X.rows X.cols (missingOf X)
      (visitOf cfg (missingOf X) X.rows X.cols) hskip
      (cfg.nBurnIn + cfg.nImputations) 0
      ⟨⟨baseMat X, seededRng cfg rng0, m0, []⟩, [], []⟩ hflat
  have hmi : multipleImputations ext cfg m0 (seededRng cfg rng0) X =
      .ok ⟨accN.results, missingOf X, accN.roundMats,
        visitOf cfg (missingOf X) X.rows X.cols, fun _ => 0,
        accN.st.model, accN.st.fits⟩ := by
    simp only [multipleImputations, hpre, hrounds]
  have hmean : meanAxis0 accN.results = [] := by
    apply meanAxis0_nil
    intro x hx
    rcases hresN x hx with hx' | hx'
    · cases hx'
    · exact hx'
  have hassign : maskAssign X (missingOf X) (meanAxis0 accN.results) = X.entry := by
    funext i j
    unfold maskAssign
    rw [if_neg]
    rintro ⟨hi, hj, hm⟩
    rw [hmaskF i hi j hj] at hm
    exact Bool.false_ne_true hm
  simp only [completeOut, miceComplete, complete, hmi, hassign]

/-! ### C5 witness -/

/-- C5 witness: the concrete fully observed matrix `Xfull` is completed
unchanged. -/
theorem c5_witness :
    completeOut (miceComplete extCol cfgBase [] 3 Xfull) = some Xfull.entry :=
  c5_no_missing_identity extCol cfgBase [] 3 Xfull
    (Or.inr (Or.inr (Or.inl rfl))) (by decide)

/-! ### C6 -/

/-- C6: with a fixed seed in the configuration, `__init__` reseeds the
global random stream, so two runs on the same input with identical
configuration produce identical results no matter the ambient random state
each run starts from. -/
theorem c6_seed_determinism {M : Type} (ext : ExtOps M) (cfg : Config)
    (m0 : M) (X : XMat) (s : Nat) (hseed : cfg.seed = some s)
    (rng1 rng2 : Rng) :
    miceComplete ext cfg m0 rng1 X = miceComplete ext cfg m0 rng2 X := by
  unfold miceComplete seededRng
  rw [hseed]

/-- C6 witness: two seeded runs from different ambient random states. -/
theorem c6_witness :
    cfgSeeded.seed = some 4 ∧
    miceComplete extCol cfgSeeded [] 1 Xone = miceComplete extCol cfgSeeded [] 99 Xone :=
  ⟨rfl, c6_seed_determinism extCol cfgSeeded [] Xone 4 rfl 1 99⟩

/-! ### C4 -/

/-- An unrecognized impute mode crashes the column loop at the first column
with missing data (the `imputed_values` local is never assigned). -/
theorem columnsLoop_unbound {M : Type} (ext : ExtOps M) (cfg : Config)
    (rows cols : Nat) (mask : Mask) (rsx : Mat)
    (hbad : cfg.imputeType ≠ "pmm" ∧ cfg.imputeType ≠ "col") :
    ∀ (l : List Nat) (st : RunSt M),
      (∃ c ∈ l, 0 < (missingRows mask rows c).length) →
      columnsLoop ext cfg rows cols mask rsx l st = .error .unboundLocal := by
  intro l
  induction l with
  | nil =>
    intro st h
    rcases h with ⟨c, hc, -⟩
    cases hc
  | cons c rest ih =>
    intro st h
    by_cases hc : 0 < (missingRows mask rows c).length
    · have hcol : imputeColumn ext cfg rows cols mask rsx st c = .error .unboundLocal := by
        simp only [imputeColumn]
        rw [if_pos hc, if_neg hbad.1, if_neg hbad.2]
      simp only [columnsLoop, hcol]
    · have hcol := imputeColumn_skip ext cfg rows cols mask rsx st c hc
      simp only [columnsLoop, hcol]
      apply ih
      rcases h with ⟨c', hc', hcnt⟩
      rcases List.mem_cons.mp hc' with rfl | hmem
      · exact absurd hcnt hc
      · exact ⟨c', hmem, hcnt⟩

/-- C4 (amended): an unrecognized visit-order strategy is detected
pre-flight — before initialization and before any round — and aborts the
whole call with a ConfigurationError; an unrecognized impute mode, by
contrast, passes every pre-flight check and aborts the call only inside
the first imputation round, as an unbound-local error.  In both cases the
call produces no output. -/
theorem c4_amended {M : Type} (ext : ExtOps M) (m0 : M) (rng0 : Rng)
    (cfg1 : Config) (X1 : XMat)
    (hbad1 : cfg1.visitSequence ≠ "roman" ∧ cfg1.visitSequence ≠ "arabic" ∧
      cfg1.visitSequence ≠ "monotone" ∧ cfg1.visitSequence ≠ "revmonotone")
    (hcm1 : checkMissingValueMask X1 = .ok ())
    (cfg2 : Config) (X2 : XMat) (ps : PreSt M) (rng2 : Rng) (m2 : M)
    (hbad2 : cfg2.imputeType ≠ "pmm" ∧ cfg2.imputeType ≠ "col")
    (hpre2 : miPreRounds ext cfg2 m2 rng2 X2 = .ok ps)
    (hpos : 0 < cfg2.nBurnIn + cfg2.nImputations)
    (hmiss : ∃ j, j < X2.cols ∧ 0 < (missingRows (missingOf X2) X2.rows j).length) :
    miPreRounds ext cfg1 m0 rng0 X1 = .error .configurationError ∧
    miceComplete ext cfg1 m0 rng0 X1 = .error .configurationError ∧
    multipleImputations ext cfg2 m2 rng2 X2 = .error .unboundLocal := by
  obtain ⟨hbadr, hbada, hbadm, hbadrv⟩ := hbad1
  have hvis : ∀ (mask : Mask) (rows cols : Nat),
      getVisitIndices cfg1 mask rows cols = .error .configurationError := by
    intro mask rows cols
    unfold getVisitIndices
    rw [if_neg hbadr, if_neg hbada, if_neg hbadm, if_neg hbadrv]
  have hpre : ∀ rng, miPreRounds ext cfg1 m0 rng X1 = .error .configurationError := by
    intro rng
    simp only [miPreRounds, checkInput, hcm1, hvis]
  refine ⟨hpre rng0, ?_, ?_⟩
  · simp only [miceComplete, complete, multipleImputations, hpre]
  · obtain ⟨-, hvis2, hmaskps, -, -, -, -⟩ := miPreRounds_ok_unpack hpre2
    have hperm := getVisitIndices_perm cfg2 (missingOf X2) X2.rows X2.cols ps.visit hvis2
    rcases hmiss with ⟨j, hj, hcnt⟩
    have hjvisit : j ∈ ps.visit := hperm.mem_iff.mpr (List.mem_range.mpr hj)
    have hcols : ∀ st, columnsLoop ext cfg2 X2.rows X2.cols (missingOf X2)
        (st : RunSt M).Xf ps.visit st = .error .unboundLocal :=
      fun st => columnsLoop_unbound ext cfg2 X2.rows X2.cols (missingOf X2) st.Xf
        hbad2 ps.visit st ⟨j, hjvisit, hcnt⟩
    obtain ⟨t, ht⟩ : ∃ t, cfg2.nBurnIn + cfg2.nImputations = t + 1 :=
      ⟨cfg2.nBurnIn + cfg2.nImputations - 1, by omega⟩
    have hround : performImputationRound ext cfg2 X2.rows X2.cols (missingOf X2)
        ps.visit ps.st = .error .unboundLocal := hcols ps.st
    simp only [multipleImputations, hpre2, ht, hmaskps, roundsLoop, hround]

/-- C4 counterexample: the configuration with impute mode "ppm" (the typo
from the constructor docstring) passes every pre-flight check on `Xone`,
yet the whole call aborts with an unbound-local error raised inside the
first imputation round — the unrecognized mode is neither detected
pre-flight nor reported as a ConfigurationError. -/
theorem c4_counterexample :
    runErr (miPreRounds extCol cfgBad [] 1 Xone) = none ∧
    runErr (miceComplete extCol cfgBad [] 1 Xone) = some .unboundLocal := by
  constructor <;> decide

/-- C4 witness: the amended theorem applied to the concrete configurations
"nonsense" (bad strategy) and "ppm" (bad mode). -/
theorem c4_witness :
    miPreRounds extCol { cfgBase with visitSequence := "nonsense" } [] 1 Xone =
      .error .configurationError ∧
    miceComplete extCol { cfgBase with visitSequence := "nonsense" } [] 1 Xone =
      .error .configurationError ∧
    multipleImputations extCol cfgBad [] 1 Xone = .error .unboundLocal := by
  have hpre2 : miPreRounds extCol cfgBad [] 1 Xone =
      .ok (exOk (miPreRounds extCol cfgBad [] 1 Xone)) := rfl
  exact c4_amended extCol [] 1 { cfgBase with visitSequence := "nonsense" } Xone
    ⟨by decide, by decide, by decide, by decide⟩ (by decide)
    cfgBad Xone (exOk (miPreRounds extCol cfgBad [] 1 Xone)) 1 []
    ⟨by decide, by decide⟩ hpre2 (by decide)
    ⟨1, by decide, by decide⟩

/-! ### C2 -/

/-- C2, the code evaluated at the failing input: in a two-round run on a
matrix with one missing cell, `fit` runs twice and the two fitted states
differ (the ghost trace records them), while every slot of the persisted
ensemble is a reference to the single shared `self.model` object whose
final state is the second fit.  Slot [0][c] therefore does not hold the
round-0 fitted model: dereferencing it — as `complete_row`'s replay does —
yields the final fit. -/
theorem c2_aliasing_bug :
    miceComplete extCol cfgC2 [] 1 Xone = .ok c2res ∧
    c2res.fits.length = 2 ∧
    c2res.finalModel = c2res.fits.getD 1 [] ∧
    c2res.fits.getD 0 [] ≠ c2res.fits.getD 1 [] ∧
    c2res.fittedModels = List.replicate 2 (List.replicate 2 ()) :=
  ⟨rfl, by decide, by decide, by decide, by decide⟩

/-! ### C9 -/

/-- C9 (amended): when the persisted-state and dimension checks pass —
stored models present and a row of the stored width — a stored
`impute_type` other than "col" makes `complete_row` fail with
ConfigurationError before any imputation computation; the result is the
same for every model implementation and consumes nothing from the random
stream. -/
theorem c9_pmm_rejected {M : Type} (ext : ExtOps M) (cfg : Config)
    (st : MiceStored M) (X : RowIn) (passed : Option (List (List Unit)))
    (seedArg : Option Nat) (rng0 : Rng) (sfm : List (List Unit))
    (hst : st.fittedModels = some sfm)
    (hlen : X.length = (sfm.headD []).length)
    (hmode : cfg.imputeType ≠ "col") :
    completeRow ext cfg st X passed seedArg rng0 = .error .configurationError := by
  cases passed with
  | none =>
    simp only [completeRow, hst]
    rw [if_neg (by simp [hlen]), if_pos hmode]
  | some p =>
    simp only [completeRow, hst]
    rw [if_neg (by simp [hlen]), if_pos hmode]

/-- C9 counterexample: with stored `impute_type = "pmm"` but no persisted
models, the call fails with the missing-state error (`"No saved fitted
models!"`), not with ConfigurationError — so not every such call fails
with ConfigurationError. -/
theorem c9_counterexample :
    runErr (completeRow extCol { cfgBase with imputeType := "pmm" } storedNone
      [some 1, none] none none 9) = some .stateError ∧
    Err.stateError ≠ Err.configurationError := by
  constructor <;> decide

/-- C9 witness: a pmm-configured instance with persisted state rejects a
well-shaped row with ConfigurationError. -/
theorem c9_witness :
    completeRow extCol { cfgBase with imputeType := "pmm" } storedOk
      [some 1, none] none none 9 = .error .configurationError :=
  c9_pmm_rejected extCol { cfgBase with imputeType := "pmm" } storedOk
    [some 1, none] none none 9 [[(), ()], [(), ()]] rfl (by decide) (by decide)

/-! ### C10 -/

/-- C10: `complete_row` validates the row length against the instance's own
`self.fitted_models` shape, not against a passed ensemble: (i) with stored
models present, a row whose length differs from the stored width is
rejected with DimensionError for every passed ensemble, whatever its
shape; (ii) with no stored models, passing an ensemble yields no
DimensionError check against it — accessing the stored shape itself fails
(AttributeError on `None.shape`). -/
theorem c10_length_check_uses_stored {M : Type} (ext : ExtOps M) (cfg : Config)
    (st1 : MiceStored M) (X1 : RowIn) (sfm : List (List Unit))
    (hst1 : st1.fittedModels = some sfm)
    (hne : X1.length ≠ (sfm.headD []).length)
    (st2 : MiceStored M) (X2 : RowIn) (hst2 : st2.fittedModels = none)
    (seedArg : Option Nat) (rng0 : Rng) :
    (∀ p, completeRow ext cfg st1 X1 (some p) seedArg rng0 = .error .dimensionError) ∧
    (∀ p, completeRow ext cfg st2 X2 (some p) seedArg rng0 = .error .attributeError) := by
  constructor
  · intro p
    simp only [completeRow, hst1]
    rw [if_pos hne]
  · intro p
    simp only [completeRow, hst2]

/-- C10 witness: the stored ensemble is 2 columns wide; a 3-entry row is
rejected with DimensionError even though the passed ensemble is 3 columns
wide, and with nothing stored a passed ensemble yields AttributeError. -/
theorem c10_witness :
    completeRow extCol cfgBase storedOk [some 1, none, some 3]
      (some [[(), (), ()]]) none 9 = .error .dimensionError ∧
    completeRow extCol cfgBase storedNone [some 1, none]
      (some [[(), ()]]) none 9 = .error .attributeError := by
  have h := c10_length_check_uses_stored extCol cfgBase storedOk
    [some 1, none, some 3] [[(), ()], [(), ()]] rfl (by decide)
    storedNone [some 1, none] rfl none 9
  exact ⟨h.1 [[(), (), ()]], h.2 [[(), ()]]⟩

/-! ### C7 witness -/

/-- C7 witness: monotone order on the concrete mask of `Xone` is a
permutation of the column indices with descending per-column missing
counts. -/
theorem c7_witness :
    getVisitIndices cfgBase (missingOf Xone) 3 2 =
      .ok (visitOf cfgBase (missingOf Xone) 3 2) ∧
    (visitOf cfgBase (missingOf Xone) 3 2).Perm (List.range 2) ∧
    (visitOf cfgBase (missingOf Xone) 3 2).Pairwise
      (fun a b => colMissingCount (missingOf Xone) 3 b ≤
        colMissingCount (missingOf Xone) 3 a) := by
  have h := c7_visit_order cfgBase (missingOf Xone) 3 2 (Or.inr (Or.inr (Or.inl rfl)))
  exact ⟨h.1, h.2.1, h.2.2.2.2.1 rfl⟩

end FancyMICE
